import Mathlib

/-!
# Concurrent depth-bounded crawler (`main.go`)

A shallow embedding of `URLRepo`, `Crawl`, `fakeFetcher` and `main` as an
interleaving semantics: every call of `Crawl` is a record with its arguments
and a program counter, one scheduler choice executes one statement of one
goroutine, and the shared objects (`URLRepo`, the `sync.WaitGroup` counter,
standard output) are fields of the state.

* The two methods of `URLRepo` hold the mutex for their whole body, so each of
  them is one step; nothing holds the mutex between `urlExists` and `save`, so
  the test and the insertion of `Crawl` are two steps.
* `wg.Add(1)` and `go Crawl(...)` are two steps; the deferred `wg.Done()` is the
  last step of every call, on every return path.
* A `Fetcher` is a function from the url to the result of `Fetch`.
* `depth` is an integer; `depth - 1` is computed only for `depth > 0`, so the
  machine width plays no part.
* The schedule is a list of goroutine indices; the theorems quantify over all
  schedules.
-/

namespace Crawler

/-! ## Fetcher -/

/-- The `Fetcher` interface: `Fetch(url)` returns `(body, urls, nil)` or an error. -/
abbrev Fetcher := String → Except String (String × List String)

/-- The struct `fakeResult`. -/
structure fakeResult where
  body : String
  urls : List String
deriving DecidableEq, Repr

/-- The type `fakeFetcher`, a Go map from url to result, as an association list. -/
abbrev fakeFetcher := List (String × fakeResult)

/-- The method `fakeFetcher.Fetch`. -/
def fakeFetcher.Fetch (f : fakeFetcher) : Fetcher := fun url =>
  match f.lookup url with
  | some res => .ok (res.body, res.urls)
  | none => .error ("not found: " ++ url)

/-- The package variable `fetcher`. -/
def fetcher : fakeFetcher :=
  [ ("https://golang.org/",
      ⟨"The Go Programming Language",
       ["https://golang.org/pkg/", "https://golang.org/cmd/"]⟩),
    ("https://golang.org/pkg/",
      ⟨"Packages",
       ["https://golang.org/", "https://golang.org/cmd/",
        "https://golang.org/pkg/fmt/", "https://golang.org/pkg/os/"]⟩),
    ("https://golang.org/pkg/fmt/",
      ⟨"Package fmt", ["https://golang.org/", "https://golang.org/pkg/"]⟩),
    ("https://golang.org/pkg/os/",
      ⟨"Package os", ["https://golang.org/", "https://golang.org/pkg/"]⟩) ]

/-! ## URLRepo -/

/-- The struct `URLRepo`; the mutex `mu` makes each method one atomic step. -/
structure URLRepo where
  urls : List String
deriving DecidableEq, Repr

/-- The method `URLRepo.save`: append under the lock. -/
def URLRepo.save (u : URLRepo) (url : String) : URLRepo :=
  { urls := u.urls ++ [url] }

/-- The `for _, item := range u.urls` loop of `urlExists`. -/
def urlExistsLoop : List String → String → Bool
  | [], _ => false
  | item :: rest, url => if item = url then true else urlExistsLoop rest url

/-- The method `URLRepo.urlExists`: linear search under the lock. -/
def URLRepo.urlExists (u : URLRepo) (url : String) : Bool :=
  urlExistsLoop u.urls url

/-! ## Crawl -/

/-- A line written to standard output. -/
inductive Event where
  /-- The line of `fmt.Println(err)`. -/
  | err (msg : String)
  /-- The line of `fmt.Printf("found: %s %q\n", url, body)`. -/
  | found (url body : String)
deriving DecidableEq, Repr

/-- Program points of one call of `Crawl`. -/
inductive PC where
  /-- Line 42, the test `depth <= 0`. -/
  | entry
  /-- Line 46, the call `repo.urlExists(url)`. -/
  | check
  /-- Line 50, the call `repo.save(url)`. -/
  | save
  /-- Line 52, the call `fetcher.Fetch(url)`. -/
  | fetch
  /-- Lines 53 to 55, `err != nil`: about to print the error and return. -/
  | failed (msg : String)
  /-- Line 57, `err == nil`: about to print the body and enter the loop. -/
  | found (body : String) (urls : List String)
  /-- Line 60, `wg.Add(1)` for the link `u`; `rest` are the links after it. -/
  | add (u : String) (rest : List String)
  /-- Line 61, `go Crawl(u, depth-1, ...)`. -/
  | go (u : String) (rest : List String)
  /-- The function returns: the deferred `wg.Done()` of line 41. -/
  | ret
deriving DecidableEq, Repr

/-- One call of `Crawl`: its arguments `url`, `depth` and where it stands. -/
structure Branch where
  url : String
  depth : Int
  pc : PC
deriving DecidableEq, Repr

/-- What the goroutines share. `fetched` and `spawns` are history variables:
the urls handed to `Fetch` and the arguments of every `go Crawl`, in order. -/
structure Shared where
  repo : URLRepo
  wg : Int
  out : List Event
  fetched : List String
  spawns : List (String × Int)
  panicked : Bool
deriving DecidableEq, Repr

/-- The result of one step of a call of `Crawl`. -/
structure Outcome where
  /-- The call after the step; `none` when it has returned. -/
  next : Option Branch
  sh : Shared
  /-- The goroutines the step started. -/
  spawned : List Branch
deriving DecidableEq, Repr

/-- The head of the loop `for _, u := range urls`. -/
def loopPC : List String → PC
  | [] => .ret
  | u :: rest => .add u rest

/-- One statement of `Crawl`. `sync.WaitGroup` panics when `Done` makes the
counter negative. -/
def Crawl.step (F : Fetcher) (b : Branch) (sh : Shared) : Outcome :=
  match b.pc with
  | .entry =>
    if b.depth ≤ 0 then ⟨some { b with pc := .ret }, sh, []⟩
    else ⟨some { b with pc := .check }, sh, []⟩
  | .check =>
    if sh.repo.urlExists b.url then ⟨some { b with pc := .ret }, sh, []⟩
    else ⟨some { b with pc := .save }, sh, []⟩
  | .save =>
    ⟨some { b with pc := .fetch }, { sh with repo := sh.repo.save b.url }, []⟩
  | .fetch =>
    match F b.url with
    | .error e =>
      ⟨some { b with pc := .failed e }, { sh with fetched := sh.fetched ++ [b.url] }, []⟩
    | .ok (body, urls) =>
      ⟨some { b with pc := .found body urls },
        { sh with fetched := sh.fetched ++ [b.url] }, []⟩
  | .failed e =>
    ⟨some { b with pc := .ret }, { sh with out := sh.out ++ [.err e] }, []⟩
  | .found body urls =>
    ⟨some { b with pc := loopPC urls },
      { sh with out := sh.out ++ [.found b.url body] }, []⟩
  | .add u rest =>
    ⟨some { b with pc := .go u rest }, { sh with wg := sh.wg + 1 }, []⟩
  | .go u rest =>
    ⟨some { b with pc := loopPC rest },
      { sh with spawns := sh.spawns ++ [(u, b.depth - 1)] },
      [⟨u, b.depth - 1, .entry⟩]⟩
  | .ret =>
    ⟨none, { sh with wg := sh.wg - 1, panicked := decide (sh.wg - 1 < 0) }, []⟩

/-! ## main -/

/-- Program points of `main`, generalised over the root url and the depth. -/
inductive MainPC where
  /-- Line 118, `wg.Add(1)`, before the call `Crawl(url, depth, ...)`. -/
  | start (url : String) (depth : Int)
  /-- Line 119, inside the call of `Crawl`, which runs on the main goroutine. -/
  | crawl (b : Branch)
  /-- Line 120, `wg.Wait()`. -/
  | wait
  /-- After line 120: `main` has returned and the process is over. -/
  | exit
deriving DecidableEq, Repr

/-- The whole program: the main goroutine, the goroutines started by `go`
that have not returned, and the shared objects. -/
structure State where
  main : MainPC
  pool : List Branch
  sh : Shared
deriving DecidableEq, Repr

/-- The state at line 118 with the repository `repo`. -/
def init (repo : URLRepo) (url : String) (depth : Int) : State :=
  { main := .start url depth, pool := [],
    sh := { repo := repo, wg := 0, out := [], fetched := [], spawns := [], panicked := false } }

/-- The pool after goroutine `k` made a step. -/
def updPool (pool : List Branch) (k : Nat) (o : Outcome) : List Branch :=
  (match o.next with
   | some b => pool.set k b
   | none => pool.eraseIdx k) ++ o.spawned

/-- One step of the main goroutine. `wg.Wait()` blocks until the counter is zero. -/
def stepMain (F : Fetcher) (s : State) : Option State :=
  match s.main with
  | .start url depth =>
    some { s with main := .crawl ⟨url, depth, .entry⟩, sh := { s.sh with wg := s.sh.wg + 1 } }
  | .crawl b =>
    let o := Crawl.step F b s.sh
    some { main := (match o.next with | some b1 => .crawl b1 | none => .wait),
           pool := s.pool ++ o.spawned, sh := o.sh }
  | .wait => if s.sh.wg = 0 then some { s with main := .exit } else none
  | .exit => none

/-- One step of the scheduler: `0` runs the main goroutine, `k + 1` runs the
`k`-th goroutine of the pool. No step after a panic or after `main` returned. -/
def step (F : Fetcher) (s : State) (i : Nat) : Option State :=
  if s.sh.panicked = true ∨ s.main = .exit then none
  else
    match i with
    | 0 => stepMain F s
    | k + 1 =>
      match s.pool[k]? with
      | none => none
      | some b =>
        let o := Crawl.step F b s.sh
        some { main := s.main, pool := updPool s.pool k o, sh := o.sh }

/-- Run a schedule; `none` when it names a goroutine that cannot move. -/
def run (F : Fetcher) (s : State) : List Nat → Option State
  | [] => some s
  | i :: rest => (step F s i).bind (fun s1 => run F s1 rest)

/-- The scheduler that runs the pool first (newest goroutine first), else main. -/
def pick (s : State) : Nat :=
  if s.pool = [] then 0 else s.pool.length

/-- Run `pick` for `fuel` steps or until no step is possible. -/
def runFuel (F : Fetcher) : Nat → State → State
  | 0, s => s
  | n + 1, s =>
    match step F s (pick s) with
    | some s1 => runFuel F n s1
    | none => s

/-! ## Auxiliary notions used in the statements -/

/-- The outbound links of a page; a page whose fetch fails has none. -/
def links (F : Fetcher) (url : String) : List String :=
  match F url with
  | .ok (_, urls) => urls
  | .error _ => []

/-- The urls reachable from `root` by a link path of length exactly `k`. -/
def level (F : Fetcher) (root : String) : Nat → List String
  | 0 => [root]
  | k + 1 => (level F root k).flatMap (links F)

/-- The calls of `Crawl` that have begun and not returned: the one on the
main goroutine, then the pool. -/
def live (s : State) : List Branch :=
  (match s.main with
   | .crawl b => [b]
   | _ => []) ++ s.pool

/-- A call standing between its `wg.Add(1)` and the `go` statement. -/
def atGo (b : Branch) : Bool :=
  match b.pc with
  | .go _ _ => true
  | _ => false

/-- The branches registered with the WaitGroup and not yet done: the live
calls, and the ones whose `wg.Add(1)` has run while their `go` has not. -/
def inFlight (s : State) : Nat :=
  (live s).length + (live s).countP atGo

/-! ## The WaitGroup counter -/

/-- The counter invariant: no panic, the counter counts the registered
branches, and no call is live before `main` calls `Crawl` or after `main` has
returned. -/
def WgInv (s : State) : Prop :=
  s.sh.panicked = false ∧ s.sh.wg = (inFlight s : Int) ∧
  ((s.main = .exit ∨ ∃ u d, s.main = .start u d) → live s = [])

/-! ## Termination -/

/-- A bound on the number of steps of a call of `Crawl` with `n` levels left,
its descendants included. -/
def costN (F : Fetcher) : Nat → String → Nat
  | 0, _ => 2
  | n + 1, url => 6 + ((links F url).map (fun v => 2 + costN F n v)).sum

/-- The steps still needed to register, start and run a call for each of `urls`
with depth `d`. -/
def spawnCost (F : Fetcher) (d : Int) (urls : List String) : Nat :=
  (urls.map (fun v => 2 + costN F d.toNat v)).sum

/-- A bound on the steps a live call and its descendants can still make. -/
def pot (F : Fetcher) (b : Branch) : Nat :=
  match b.pc with
  | .entry => costN F b.depth.toNat b.url
  | .check => 5 + spawnCost F (b.depth - 1) (links F b.url)
  | .save => 4 + spawnCost F (b.depth - 1) (links F b.url)
  | .fetch => 3 + spawnCost F (b.depth - 1) (links F b.url)
  | .failed _ => 2
  | .found _ urls => 2 + spawnCost F (b.depth - 1) urls
  | .add u rest => 1 + spawnCost F (b.depth - 1) (u :: rest)
  | .go u rest => 2 + costN F (b.depth - 1).toNat u + spawnCost F (b.depth - 1) rest
  | .ret => 1

/-- The steps `main` itself can still make. -/
def mainPot (F : Fetcher) : MainPC → Nat
  | .start u d => 2 + costN F d.toNat u
  | .crawl _ => 1
  | .wait => 1
  | .exit => 0

/-- A bound on the number of steps the program can still make. -/
def budget (F : Fetcher) (s : State) : Nat :=
  mainPot F s.main + ((live s).map (pot F)).sum

/-! ## The depth bound -/

/-- The shortest link distance from `root` to `x` is exactly `d`. -/
def hasDist (F : Fetcher) (root x : String) (d : Nat) : Prop :=
  x ∈ level F root d ∧ ∀ k < d, x ∉ level F root k

instance (F : Fetcher) (root x : String) (d : Nat) : Decidable (hasDist F root x d) := by
  unfold hasDist
  infer_instance

/-- What the program counter of a call says about its arguments: past the
depth test the depth is positive, and the links still to be spawned are links
of the page. -/
def pcOK (F : Fetcher) (b : Branch) : Prop :=
  match b.pc with
  | .entry => True
  | .check => 0 < b.depth
  | .save => 0 < b.depth
  | .fetch => 0 < b.depth
  | .failed _ => True
  | .found _ urls => ∀ v ∈ urls, v ∈ links F b.url
  | .add u rest => ∀ v ∈ u :: rest, v ∈ links F b.url
  | .go u rest => ∀ v ∈ u :: rest, v ∈ links F b.url
  | .ret => True

/-- A call with depth `d` in a crawl of depth `D` sits at the end of a link
path of length `D - d` from the root. -/
def onLevel (F : Fetcher) (root : String) (D : Int) (b : Branch) : Prop :=
  (∃ k : Nat, (k : Int) + b.depth = D ∧ b.url ∈ level F root k) ∧ pcOK F b

/-- Every url handed to `Fetch` is within distance less than `D` of the root. -/
def fetchedNear (F : Fetcher) (root : String) (D : Int) (sh : Shared) : Prop :=
  ∀ x ∈ sh.fetched, ∃ k : Nat, (k : Int) < D ∧ x ∈ level F root k

/-- The depth invariant of a crawl `Crawl(root, D)`: every live call sits on
its level and every fetched url is near the root. -/
def DepthInv (F : Fetcher) (root : String) (D : Int) (s : State) : Prop :=
  (∀ u d, s.main = .start u d → u = root ∧ d = D) ∧
  (∀ b ∈ live s, onLevel F root D b) ∧ fetchedNear F root D s.sh

/-! ## A crawl of depth one -/

/-- The links for which the root call still has to run `go Crawl`. -/
def pending (F : Fetcher) (root : String) : PC → List String
  | .entry => links F root
  | .check => links F root
  | .save => links F root
  | .fetch => links F root
  | .failed _ => []
  | .found _ urls => urls
  | .add u rest => u :: rest
  | .go u rest => u :: rest
  | .ret => []

/-- The repository while the root call of a fresh crawl stands at `pc`. -/
def repoAt (root : String) : PC → List String
  | .entry => []
  | .check => []
  | .save => []
  | _ => [root]

/-- The urls handed to `Fetch` while the root call stands at `pc`. -/
def fetchedAt (root : String) : PC → List String
  | .entry => []
  | .check => []
  | .save => []
  | .fetch => []
  | _ => [root]

/-- The shared objects while the root call of a depth-one crawl stands at `pc`. -/
def rootOK (F : Fetcher) (root : String) (pc : PC) (sh : Shared) : Prop :=
  sh.repo.urls = repoAt root pc ∧ sh.fetched = fetchedAt root pc ∧
  sh.spawns ++ (pending F root pc).map (fun u => (u, (0 : Int)))
    = (links F root).map (fun u => (u, (0 : Int)))

/-- The invariant of a crawl of depth one from an empty repository: the only
call with positive depth is the root call, on the main goroutine. -/
def DepthOneInv (F : Fetcher) (root : String) (s : State) : Prop :=
  (∀ c ∈ s.pool, c.depth = 0 ∧ (c.pc = .entry ∨ c.pc = .ret)) ∧
  (match s.main with
   | .start u d => u = root ∧ d = 1 ∧ rootOK F root .entry s.sh
   | .crawl b => b.url = root ∧ b.depth = 1 ∧ rootOK F root b.pc s.sh
   | .wait => rootOK F root .ret s.sh
   | .exit => rootOK F root .ret s.sh)

/-! ## A call with no depth left -/

/-- The states of `main` around a call `Crawl(url, depth, ...)` with
`depth <= 0`: nothing is spawned and the shared history stays as it was. -/
def ExhaustedInv (r : URLRepo) (url : String) (depth : Int) (s : State) : Prop :=
  s.pool = [] ∧ s.sh.repo = r ∧ s.sh.fetched = [] ∧ s.sh.spawns = [] ∧ s.sh.out = [] ∧
  (s.main = .start url depth ∨ s.main = .crawl ⟨url, depth, .entry⟩ ∨
    s.main = .crawl ⟨url, depth, .ret⟩ ∨ s.main = .wait ∨ s.main = .exit)

/-! ## Failure isolation -/

/-- The fetcher `F` with the page `X` replaced by a page with body `body` and
no outbound links. -/
def withEmptyPage (F : Fetcher) (X body : String) : Fetcher := fun u =>
  if u = X then .ok (body, []) else F u

/-- A call for `X` that is about to report success is about to report the
failure `e` instead. -/
def failB (X e : String) (b : Branch) : Branch :=
  match b.pc with
  | .found _ _ => if b.url = X then { b with pc := .failed e } else b
  | _ => b

/-- The line reporting `X` as found becomes the line reporting the error `e`. -/
def failE (X e : String) : Event → Event
  | .found u body => if u = X then .err e else .found u body
  | .err m => .err m

/-- The shared objects with the reports about `X` turned into failures. -/
def failSh (X e : String) (sh : Shared) : Shared :=
  { sh with out := sh.out.map (failE X e) }

/-- The main goroutine with its call of `Crawl` mapped by `failB`. -/
def failMain (X e : String) : MainPC → MainPC
  | .crawl b => .crawl (failB X e b)
  | m => m

/-- The state of a crawl in which the fetch of `X` fails with `e`, read off the
state of the crawl in which `X` is a page without links: only the reports
about `X` differ. -/
def failAt (X e : String) (s : State) : State :=
  { main := failMain X e s.main, pool := s.pool.map (failB X e), sh := failSh X e s.sh }

/-- The outcome of a statement mapped componentwise. -/
def failO (X e : String) (o : Outcome) : Outcome :=
  { next := o.next.map (failB X e), sh := failSh X e o.sh,
    spawned := o.spawned.map (failB X e) }

/-- A call for `X` that has fetched it successfully has found no links. -/
def emptyAt (X : String) (b : Branch) : Prop :=
  b.url = X → ∀ body us, b.pc = .found body us → us = []

/-! ## Further step facts -/

/-- The effect of one statement of `Crawl` on the counter. -/
def wgDelta : PC → Int
  | .add _ _ => 1
  | .ret => -1
  | _ => 0

/-! ## Concrete graphs and schedules -/

/-- The graph `A -> {B, C}`, `B -> {A, C}`, `C -> {A}`. -/
def graphABC : fakeFetcher :=
  [("A", ⟨"a", ["B", "C"]⟩), ("B", ⟨"b", ["A", "C"]⟩), ("C", ⟨"c", ["A"]⟩)]

/-- The graph `A -> {B, C}`, `B -> {A, C}` with `C` unmapped. -/
def graphAB : fakeFetcher :=
  [("A", ⟨"a", ["B", "C"]⟩), ("B", ⟨"b", ["A", "C"]⟩)]

/-- The graph `A -> {B, C}`, `B -> {C}`, `C -> {D}`. -/
def graphABCD : fakeFetcher :=
  [("A", ⟨"a", ["B", "C"]⟩), ("B", ⟨"b", ["C"]⟩), ("C", ⟨"c", ["D"]⟩), ("D", ⟨"d", []⟩)]

/-- A schedule of `Crawl("A", 3)` on `graphABC`: the root call runs to its end,
then the call for `B`, then the two calls for `C` (spawned by `A` with depth 2
and by `B` with depth 1) both run `urlExists` before either runs `save`. -/
def bothPassCheck : List Nat :=
  List.replicate 11 0 ++ List.replicate 10 1 ++ [1, 3, 1, 3]

/-- The schedule `bothPassCheck` continued to the end of `main`. -/
def raceSchedule : List Nat :=
  bothPassCheck ++ [1, 3, 1, 3, 3, 3, 3, 4, 4, 3, 2, 2, 2, 1, 1, 1, 2, 2, 2, 1, 0]

/-- A schedule in which every spawned call runs to its end as soon as it is
spawned, in link order. -/
def depthFirst : List Nat :=
  [0, 0, 0, 0, 0, 0, 0, 0, 1, 1, 1, 1, 1, 1, 1, 2, 2, 2, 2, 2, 2, 2, 3, 3, 2, 1, 0, 0,
   1, 1, 1, 0, 0]

/-- A complete schedule of `Crawl("A", 1)` on `graphABC`. -/
def depthOneSchedule : List Nat :=
  [0, 0, 0, 0, 0, 0, 0, 0, 1, 1, 0, 0, 1, 1, 0, 0]

/-- A complete schedule of `Crawl("A", 2)` on `graphAB` and on `graphABC`. -/
def depthTwoSchedule : List Nat :=
  [0, 0, 0, 0, 0, 0, 0, 0, 1, 1, 1, 1, 1, 1, 1, 2, 2, 1, 1, 2, 2, 1, 0, 0, 1, 1, 1, 1, 1,
   1, 0, 0]

/-- The state after `bothPassCheck`: both calls for `C` stand before `save`. -/
def checkState : State :=
  { main := .wait,
    pool := [⟨"C", 2, .save⟩, ⟨"A", 1, .entry⟩, ⟨"C", 1, .save⟩],
    sh := { repo := ⟨["A", "B"]⟩, wg := 3,
            out := [.found "A" "a", .found "B" "b"],
            fetched := ["A", "B"],
            spawns := [("B", 2), ("C", 2), ("A", 1), ("C", 1)],
            panicked := false } }

/-- The state after `raceSchedule`. -/
def raceEnd : State :=
  { main := .exit, pool := [],
    sh := { repo := ⟨["A", "B", "C", "C"]⟩, wg := 0,
            out := [.found "A" "a", .found "B" "b", .found "C" "c", .found "C" "c"],
            fetched := ["A", "B", "C", "C"],
            spawns := [("B", 2), ("C", 2), ("A", 1), ("C", 1), ("A", 0), ("A", 1)],
            panicked := false } }

/-- The state after `depthFirst` on `graphABCD` with depth 3. -/
def depthFirstEnd : State :=
  { main := .exit, pool := [],
    sh := { repo := ⟨["A", "B", "C"]⟩, wg := 0,
            out := [.found "A" "a", .found "B" "b", .found "C" "c"],
            fetched := ["A", "B", "C"],
            spawns := [("B", 2), ("C", 1), ("D", 0), ("C", 2)],
            panicked := false } }

/-- The state after `depthOneSchedule` on `graphABC` with depth 1. -/
def depthOneEnd : State :=
  { main := .exit, pool := [],
    sh := { repo := ⟨["A"]⟩, wg := 0,
            out := [.found "A" "a"],
            fetched := ["A"],
            spawns := [("B", 0), ("C", 0)],
            panicked := false } }

/-- The state after `depthTwoSchedule` on `graphAB` with depth 2. -/
def depthTwoEnd : State :=
  { main := .exit, pool := [],
    sh := { repo := ⟨["A", "B", "C"]⟩, wg := 0,
            out := [.found "A" "a", .found "B" "b", .err "not found: C"],
            fetched := ["A", "B", "C"],
            spawns := [("B", 1), ("A", 0), ("C", 0), ("C", 1)],
            panicked := false } }

/-! # Theorems -/

/-! ## Basic facts -/

theorem urlExistsLoop_iff (l : List String) (x : String) :
    urlExistsLoop l x = true ↔ x ∈ l := by
  induction l with
  | nil => simp [urlExistsLoop]
  | cons a l ih =>
    by_cases h : a = x
    · simp [urlExistsLoop, h]
    · have h1 : ¬ x = a := fun e => h e.symm
      simp [urlExistsLoop, h, h1, ih]

theorem urlExists_iff (u : URLRepo) (x : String) :
    u.urlExists x = true ↔ x ∈ u.urls :=
  urlExistsLoop_iff u.urls x

theorem pool_split {pool : List Branch} {k : Nat} {b : Branch}
    (h : pool[k]? = some b) :
    ∃ pre post, pool = pre ++ b :: post ∧
      ∀ o : Outcome, updPool pool k o = pre ++ o.next.toList ++ post ++ o.spawned := by
  induction pool generalizing k with
  | nil => simp at h
  | cons a l ih =>
    cases k with
    | zero =>
      simp at h
      subst h
      refine ⟨[], l, rfl, ?_⟩
      intro o
      cases hn : o.next <;> simp [updPool, hn]
    | succ k =>
      simp at h
      obtain ⟨pre, post, hl, hu⟩ := ih h
      refine ⟨a :: pre, post, by simp [hl], ?_⟩
      intro o
      have := hu o
      cases hn : o.next <;> simp [updPool, hn] at this ⊢ <;> exact this

/-- The four kinds of step. -/
theorem step_cases {F : Fetcher} {s s1 : State} {i : Nat} (h : step F s i = some s1) :
    s.sh.panicked = false ∧ s.main ≠ .exit ∧
    ((∃ u d, s.main = .start u d ∧
        s1 = { main := .crawl ⟨u, d, .entry⟩, pool := s.pool,
               sh := { s.sh with wg := s.sh.wg + 1 } }) ∨
     (s.main = .wait ∧ s.sh.wg = 0 ∧ s1 = { s with main := .exit }) ∨
     (∃ b, s.main = .crawl b ∧
        s1 = { main := (match (Crawl.step F b s.sh).next with
                        | some b1 => .crawl b1
                        | none => .wait),
               pool := s.pool ++ (Crawl.step F b s.sh).spawned,
               sh := (Crawl.step F b s.sh).sh }) ∨
     (∃ pre b post, s.pool = pre ++ b :: post ∧
        s1 = { main := s.main,
               pool := pre ++ (Crawl.step F b s.sh).next.toList ++ post
                        ++ (Crawl.step F b s.sh).spawned,
               sh := (Crawl.step F b s.sh).sh })) := by
  unfold step at h
  split at h
  · simp at h
  · rename_i hg
    simp only [not_or] at hg
    refine ⟨by simpa using hg.1, hg.2, ?_⟩
    cases i with
    | zero =>
      simp only [stepMain] at h
      split at h
      · rename_i u d hm
        left
        exact ⟨u, d, hm, by simpa using h.symm⟩
      · rename_i b hm
        right; right; left
        exact ⟨b, hm, by simpa using h.symm⟩
      · rename_i hm
        right; left
        split at h
        · rename_i hw
          exact ⟨hm, hw, by simpa using h.symm⟩
        · simp at h
      · simp at h
    | succ k =>
      simp only at h
      split at h
      · simp at h
      · rename_i b hb
        obtain ⟨pre, post, hp, hu⟩ := pool_split hb
        right; right; right
        refine ⟨pre, b, post, hp, ?_⟩
        simp only [Option.some.injEq] at h
        rw [← h, hu]

/-- Invariants hold along every schedule. -/
theorem run_inv {F : Fetcher} (P : State → Prop)
    (hstep : ∀ s i s1, P s → step F s i = some s1 → P s1) :
    ∀ (sched : List Nat) (s s1 : State), P s → run F s sched = some s1 → P s1 := by
  intro sched
  induction sched with
  | nil =>
    intro s s1 hP h
    simp [run] at h
    exact h ▸ hP
  | cons i rest ih =>
    intro s s1 hP h
    simp only [run] at h
    cases hs : step F s i with
    | none => simp [hs] at h
    | some s2 =>
      simp [hs] at h
      exact ih s2 s1 (hstep s i s2 hP hs) h

theorem run_append (F : Fetcher) (s : State) (a b : List Nat) :
    run F s (a ++ b) = (run F s a).bind (fun s1 => run F s1 b) := by
  induction a generalizing s with
  | nil => simp [run]
  | cons i rest ih =>
    simp only [List.cons_append, run]
    cases hs : step F s i with
    | none => simp
    | some s2 => simp [ih]

/-- A step seen through `live`: a step of one call of `Crawl`, wherever it runs,
replaces that call by its continuation and appends what it started. -/
theorem step_live {F : Fetcher} {s s1 : State} {i : Nat} (h : step F s i = some s1) :
    s.sh.panicked = false ∧ s.main ≠ .exit ∧
    ((∃ u d, s.main = .start u d ∧
        s1 = { main := .crawl ⟨u, d, .entry⟩, pool := s.pool,
               sh := { s.sh with wg := s.sh.wg + 1 } }) ∨
     (s.main = .wait ∧ s.sh.wg = 0 ∧ s1 = { s with main := .exit }) ∨
     (∃ pre b post, live s = pre ++ b :: post ∧
        live s1 = pre ++ (Crawl.step F b s.sh).next.toList ++ post
                    ++ (Crawl.step F b s.sh).spawned ∧
        s1.sh = (Crawl.step F b s.sh).sh ∧
        (s1.main = s.main ∨
          ((∃ b0, s.main = .crawl b0) ∧ (s1.main = .wait ∨ ∃ b1, s1.main = .crawl b1))))) := by
  obtain ⟨hp, hm, hc⟩ := step_cases h
  refine ⟨hp, hm, ?_⟩
  rcases hc with hc | hc | ⟨b, hb, rfl⟩ | ⟨pre, b, post, hpool, rfl⟩
  · exact Or.inl hc
  · exact Or.inr (Or.inl hc)
  · right; right
    refine ⟨[], b, s.pool, by simp [live, hb], ?_, rfl, Or.inr ⟨⟨b, hb⟩, ?_⟩⟩
    · cases hn : (Crawl.step F b s.sh).next <;> simp [live, hn]
    · cases hn : (Crawl.step F b s.sh).next <;> simp [hn]
  · right; right
    refine ⟨(match s.main with
             | .crawl b => [b]
             | _ => []) ++ pre, b, post, by simp [live, hpool], ?_, rfl, Or.inl rfl⟩
    simp [live]

/-! ## The WaitGroup counter -/

theorem loopPC_not_go (urls : List String) :
    (match loopPC urls with
     | .go _ _ => true
     | _ => false) = false := by
  cases urls <;> rfl

theorem WgInv_init (r : URLRepo) (url : String) (depth : Int) :
    WgInv (init r url depth) := by
  simp [WgInv, init, inFlight, live]

theorem WgInv_step {F : Fetcher} {s s1 : State} {i : Nat}
    (hI : WgInv s) (h : step F s i = some s1) : WgInv s1 := by
  obtain ⟨hp, hw, hl⟩ := hI
  obtain ⟨_, hm, hc⟩ := step_live h
  rcases hc with ⟨u, d, hu, rfl⟩ | ⟨hwait, hz, rfl⟩ | ⟨pre, b, post, hls, hl1, hsh, hmain⟩
  · have hl0 := hl (Or.inr ⟨u, d, hu⟩)
    have hpool : s.pool = [] := by
      simp [live, hu] at hl0
      exact hl0
    simp [WgInv, inFlight, live, hp, hpool, atGo, hu] at hw ⊢
    omega
  · have hl0 : live s = [] := by
      simp only [inFlight] at hw
      have : (live s).length = 0 := by omega
      exact List.length_eq_zero.mp this
    simp only [live, hwait, List.nil_append] at hl0
    simp [WgInv, inFlight, live, hp, hl0, hz]
  · have hne : ¬ (s1.main = .exit ∨ ∃ u d, s1.main = .start u d) := by
      rintro (he | ⟨u, d, hs⟩)
      · rcases hmain with hmm | ⟨_, hmm | ⟨b1, hmm⟩⟩
        · exact hm (hmm ▸ he)
        · simp [hmm] at he
        · simp [hmm] at he
      · rcases hmain with hmm | ⟨_, hmm | ⟨b1, hmm⟩⟩
        · have := hl (Or.inr ⟨u, d, hmm ▸ hs⟩)
          simp [hls] at this
        · simp [hmm] at hs
        · simp [hmm] at hs
    refine ⟨?_, ?_, fun hx => absurd hx hne⟩
    · rw [hsh]
      rcases b with ⟨url, d, pc⟩
      cases pc <;> simp only [Crawl.step] <;> (try split) <;> (try exact hp)
      simp [inFlight, hls, atGo] at hw
      simp
      omega
    · rw [hsh]
      simp only [inFlight, hl1]
      simp only [inFlight, hls] at hw
      rcases b with ⟨url, d, pc⟩
      cases pc <;> simp only [Crawl.step] <;> (try split) <;>
        simp [atGo, loopPC_not_go, List.countP_cons] at hw ⊢ <;> omega

theorem WgInv_run {F : Fetcher} {r : URLRepo} {url : String} {depth : Int}
    {sched : List Nat} {s : State}
    (h : run F (init r url depth) sched = some s) : WgInv s :=
  run_inv WgInv (fun _ _ _ hI hs => WgInv_step hI hs) sched _ _ (WgInv_init r url depth) h

/-! ## Termination -/

theorem costN_pos (F : Fetcher) (d : Int) (url : String) (h : 0 < d) :
    costN F d.toNat url = 6 + spawnCost F (d - 1) (links F url) := by
  have : d.toNat = (d - 1).toNat + 1 := by omega
  rw [this]
  simp [costN, spawnCost]

theorem costN_nonpos (F : Fetcher) (d : Int) (url : String) (h : d ≤ 0) :
    costN F d.toNat url = 2 := by
  have : d.toNat = 0 := by omega
  rw [this]
  simp [costN]

theorem pot_loopPC (F : Fetcher) (url : String) (d : Int) (urls : List String) :
    pot F ⟨url, d, loopPC urls⟩ = 1 + spawnCost F (d - 1) urls := by
  cases urls <;> simp [loopPC, pot, spawnCost]

/-- Every statement of `Crawl` uses up potential. -/
theorem pot_step (F : Fetcher) (b : Branch) (sh : Shared) :
    (((Crawl.step F b sh).next.toList ++ (Crawl.step F b sh).spawned).map (pot F)).sum
      < pot F b := by
  rcases b with ⟨url, d, pc⟩
  cases pc with
  | entry =>
    by_cases hd : d ≤ 0
    · simp [Crawl.step, hd, pot, costN_nonpos F d url hd]
    · simp [Crawl.step, hd, pot, costN_pos F d url (by omega)]
  | check =>
    by_cases hx : sh.repo.urlExists url = true
    · simp [Crawl.step, hx, pot]
      omega
    · simp [Crawl.step, hx, pot]
  | save => simp [Crawl.step, pot]
  | fetch =>
    simp only [Crawl.step]
    split
    · simp [pot]
      omega
    · rename_i body urls heq
      simp [pot, links, heq]
  | failed e => simp [Crawl.step, pot]
  | found body urls =>
    simp only [Crawl.step, Option.toList, List.append_nil, List.map_cons, List.map_nil,
      List.sum_cons, List.sum_nil, pot_loopPC]
    simp only [pot]
    omega
  | add u rest => simp [Crawl.step, pot, spawnCost]
  | go u rest =>
    simp only [Crawl.step, Option.toList, List.map_cons, List.map_nil, List.cons_append,
      List.nil_append, List.sum_cons, List.sum_nil, pot_loopPC]
    simp only [pot]
    omega
  | ret => simp [Crawl.step, pot]

/-- Every step of the program uses up budget: no execution is infinite. -/
theorem budget_step {F : Fetcher} {s s1 : State} {i : Nat}
    (h : step F s i = some s1) : budget F s1 < budget F s := by
  obtain ⟨_, hm, hc⟩ := step_live h
  rcases hc with ⟨u, d, hu, rfl⟩ | ⟨hwait, hz, rfl⟩ | ⟨pre, b, post, hls, hl1, hsh, hmain⟩
  · simp [budget, live, hu, mainPot, pot]
    omega
  · simp [budget, live, hwait, mainPot]
  · have hp := pot_step F b s.sh
    have hmp : mainPot F s1.main ≤ mainPot F s.main := by
      rcases hmain with hmm | ⟨⟨b0, hb0⟩, hmm | ⟨b1, hmm⟩⟩
      · rw [hmm]
      · simp [hb0, hmm, mainPot]
      · simp [hb0, hmm, mainPot]
    simp only [budget, hls, hl1]
    simp only [List.map_append, List.sum_append, List.map_cons, List.sum_cons] at hp ⊢
    omega

theorem budget_run {F : Fetcher} :
    ∀ (sched : List Nat) (s s1 : State), run F s sched = some s1 →
      sched.length + budget F s1 ≤ budget F s := by
  intro sched
  induction sched with
  | nil =>
    intro s s1 h
    simp [run] at h
    simp [h]
  | cons i rest ih =>
    intro s s1 h
    simp only [run] at h
    cases hs : step F s i with
    | none => simp [hs] at h
    | some s2 =>
      simp [hs] at h
      have h1 := ih s2 s1 h
      have h2 := budget_step hs
      simp only [List.length_cons]
      omega

/-- Progress: under the counter invariant the chosen goroutine can move unless
`main` has returned. -/
theorem pick_enabled {F : Fetcher} {s : State} (hI : WgInv s) (hm : s.main ≠ .exit) :
    ∃ s1, step F s (pick s) = some s1 := by
  obtain ⟨hp, hw, hl⟩ := hI
  by_cases hpool : s.pool = []
  · simp only [pick, hpool, if_true]
    cases hmain : s.main with
    | start u d => simp [step, hp, hmain, stepMain]
    | crawl b => simp [step, hp, hmain, stepMain]
    | wait =>
      have : s.sh.wg = 0 := by
        simp [inFlight, live, hmain, hpool] at hw
        exact hw
      simp [step, hp, hmain, stepMain, this]
    | exit => exact absurd hmain hm
  · simp only [pick, hpool, if_false]
    obtain ⟨k, hk⟩ : ∃ k, s.pool.length = k + 1 := by
      cases hq : s.pool with
      | nil => exact absurd hq hpool
      | cons a l => exact ⟨l.length, by simp⟩
    have hlt : k < s.pool.length := by omega
    rw [hk]
    simp [step, hp, hm, List.getElem?_eq_getElem hlt]

/-- With the budget as fuel the scheduler `pick` drives the program to the end
of `main`, along a schedule. -/
theorem runFuel_exit {F : Fetcher} :
    ∀ (n : Nat) (s : State), WgInv s → budget F s ≤ n →
      (∃ sched, run F s sched = some (runFuel F n s)) ∧ (runFuel F n s).main = .exit := by
  intro n
  induction n with
  | zero =>
    intro s hI hb
    by_cases hm : s.main = .exit
    · exact ⟨⟨[], by simp [run, runFuel]⟩, by simpa [runFuel] using hm⟩
    · obtain ⟨s1, hs⟩ := pick_enabled (F := F) hI hm
      have := budget_step hs
      omega
  | succ n ih =>
    intro s hI hb
    by_cases hm : s.main = .exit
    · have hnone : step F s (pick s) = none := by simp [step, hm]
      exact ⟨⟨[], by simp [run, runFuel, hnone]⟩, by simpa [runFuel, hnone] using hm⟩
    · obtain ⟨s1, hs⟩ := pick_enabled (F := F) hI hm
      have hb1 := budget_step hs
      obtain ⟨⟨sched, hr⟩, he⟩ := ih s1 (WgInv_step hI hs) (by omega)
      refine ⟨⟨pick s :: sched, ?_⟩, ?_⟩
      · simp [run, hs, runFuel, hr]
      · simpa [runFuel, hs] using he

/-! ## The depth bound -/

theorem pcOK_loopPC {F : Fetcher} {url : String} {d : Int} {urls : List String}
    (h : ∀ v ∈ urls, v ∈ links F url) : pcOK F ⟨url, d, loopPC urls⟩ := by
  cases urls with
  | nil => simp [loopPC, pcOK]
  | cons a l => simpa [loopPC, pcOK] using h

theorem crawl_step_depth {F : Fetcher} {root : String} {D : Int} {b : Branch} {sh : Shared}
    (hb : onLevel F root D b) (hf : fetchedNear F root D sh) :
    (∀ c ∈ (Crawl.step F b sh).next.toList ++ (Crawl.step F b sh).spawned,
        onLevel F root D c) ∧
    fetchedNear F root D (Crawl.step F b sh).sh := by
  rcases b with ⟨url, d, pc⟩
  obtain ⟨⟨k, hk, hlev⟩, hpc⟩ := hb
  simp only at hk hlev
  cases pc with
  | entry =>
    by_cases hd : d ≤ 0
    · simp only [Crawl.step, hd, if_true]
      exact ⟨by simpa [onLevel, pcOK] using ⟨k, hk, hlev⟩, hf⟩
    · simp only [Crawl.step, hd, if_false]
      refine ⟨?_, hf⟩
      simp only [Option.toList, List.append_nil, List.mem_singleton, forall_eq]
      exact ⟨⟨k, hk, hlev⟩, by simp only [pcOK]; omega⟩
  | check =>
    by_cases hx : sh.repo.urlExists url = true
    · simp only [Crawl.step, hx, if_true]
      exact ⟨by simpa [onLevel, pcOK] using ⟨k, hk, hlev⟩, hf⟩
    · simp only [Crawl.step, hx, Bool.false_eq_true, if_false]
      refine ⟨?_, hf⟩
      simp only [Option.toList, List.append_nil, List.mem_singleton, forall_eq]
      exact ⟨⟨k, hk, hlev⟩, hpc⟩
  | save =>
    simp only [Crawl.step]
    refine ⟨?_, hf⟩
    simp only [Option.toList, List.append_nil, List.mem_singleton, forall_eq]
    exact ⟨⟨k, hk, hlev⟩, hpc⟩
  | fetch =>
    have hnear : fetchedNear F root D { sh with fetched := sh.fetched ++ [url] } := by
      intro x hx
      simp only [List.mem_append, List.mem_singleton] at hx
      rcases hx with hx | rfl
      · exact hf x hx
      · refine ⟨k, ?_, hlev⟩
        simp only [pcOK] at hpc
        omega
    simp only [Crawl.step]
    split
    · refine ⟨?_, hnear⟩
      simp only [Option.toList, List.append_nil, List.mem_singleton, forall_eq]
      exact ⟨⟨k, hk, hlev⟩, by simp [pcOK]⟩
    · rename_i body urls heq
      refine ⟨?_, hnear⟩
      simp only [Option.toList, List.append_nil, List.mem_singleton, forall_eq]
      exact ⟨⟨k, hk, hlev⟩, by simp [pcOK, links, heq]⟩
  | failed e =>
    simp only [Crawl.step]
    refine ⟨?_, hf⟩
    simp only [Option.toList, List.append_nil, List.mem_singleton, forall_eq]
    exact ⟨⟨k, hk, hlev⟩, by simp [pcOK]⟩
  | found body urls =>
    simp only [Crawl.step]
    refine ⟨?_, hf⟩
    simp only [Option.toList, List.append_nil, List.mem_singleton, forall_eq]
    exact ⟨⟨k, hk, hlev⟩, pcOK_loopPC hpc⟩
  | add u rest =>
    simp only [Crawl.step]
    refine ⟨?_, hf⟩
    simp only [Option.toList, List.append_nil, List.mem_singleton, forall_eq]
    exact ⟨⟨k, hk, hlev⟩, hpc⟩
  | go u rest =>
    simp only [Crawl.step]
    refine ⟨?_, hf⟩
    simp only [pcOK] at hpc
    intro c hc
    simp only [Option.toList, List.cons_append, List.nil_append, List.mem_cons,
      List.mem_singleton, List.not_mem_nil, or_false] at hc
    rcases hc with rfl | rfl
    · exact ⟨⟨k, hk, hlev⟩, pcOK_loopPC (fun v hv => hpc v (List.mem_cons_of_mem _ hv))⟩
    · refine ⟨⟨k + 1, by simp only; push_cast; omega, ?_⟩, by simp [pcOK]⟩
      simp only [level, List.mem_flatMap]
      exact ⟨url, hlev, hpc u (List.mem_cons_self _ _)⟩
  | ret =>
    simp only [Crawl.step]
    exact ⟨by simp, hf⟩

theorem DepthInv_init (F : Fetcher) (r : URLRepo) (root : String) (D : Int) :
    DepthInv F root D (init r root D) := by
  refine ⟨?_, ?_, ?_⟩
  · intro u d h
    simp [init] at h
    exact ⟨h.1.symm, h.2.symm⟩
  · simp [init, live]
  · simp [init, fetchedNear]

theorem DepthInv_step {F : Fetcher} {root : String} {D : Int} {s s1 : State} {i : Nat}
    (hI : DepthInv F root D s) (h : step F s i = some s1) : DepthInv F root D s1 := by
  obtain ⟨hst, hlive, hf⟩ := hI
  obtain ⟨_, hm, hc⟩ := step_live h
  rcases hc with ⟨u, d, hu, rfl⟩ | ⟨hwait, hz, rfl⟩ | ⟨pre, b, post, hls, hl1, hsh, hmain⟩
  · obtain ⟨rfl, rfl⟩ := hst u d hu
    refine ⟨by simp, ?_, hf⟩
    intro b hb
    simp only [live, List.singleton_append, List.mem_cons] at hb
    rcases hb with rfl | hb
    · exact ⟨⟨0, by simp, by simp [level]⟩, by simp [pcOK]⟩
    · exact hlive b (by simp [live, hu, hb])
  · refine ⟨by simp, ?_, hf⟩
    intro b hb
    exact hlive b (by simpa [live, hwait] using hb)
  · have hb : onLevel F root D b := hlive b (by simp [hls])
    obtain ⟨h1, h2⟩ := crawl_step_depth hb hf
    refine ⟨?_, ?_, hsh ▸ h2⟩
    · intro u d hu
      rcases hmain with hmm | ⟨_, hmm | ⟨b1, hmm⟩⟩
      · exact hst u d (hmm ▸ hu)
      · simp [hmm] at hu
      · simp [hmm] at hu
    · intro c hc
      rw [hl1] at hc
      simp only [List.mem_append] at hc
      rcases hc with ((hc | hc) | hc) | hc
      · exact hlive c (by simp [hls, hc])
      · exact h1 c (by simp [hc])
      · exact hlive c (by simp [hls, hc])
      · exact h1 c (by simp [hc])

/-- Along every schedule only urls within distance less than `D` are fetched. -/
theorem fetched_near_run {F : Fetcher} {r : URLRepo} {root : String} {D : Int}
    {sched : List Nat} {s : State} (h : run F (init r root D) sched = some s) :
    fetchedNear F root D s.sh :=
  (run_inv (DepthInv F root D) (fun _ _ _ hI hs => DepthInv_step hI hs) sched _ _
    (DepthInv_init F r root D) h).2.2

/-! ## A crawl of depth one -/

theorem rootOK_loopPC {F : Fetcher} {root : String} {urls : List String} {sh : Shared}
    (h1 : sh.repo.urls = [root]) (h2 : sh.fetched = [root])
    (h3 : sh.spawns ++ urls.map (fun u => (u, (0 : Int)))
            = (links F root).map (fun u => (u, (0 : Int)))) :
    rootOK F root (loopPC urls) sh := by
  cases urls with
  | nil => exact ⟨h1, h2, by simpa [loopPC, pending] using h3⟩
  | cons a l => exact ⟨h1, h2, by simpa [loopPC, pending] using h3⟩

/-- The steps of the root call of a depth-one crawl. -/
theorem rootOK_step {F : Fetcher} {root : String} {d : Int} {pc : PC} {sh : Shared}
    (hd : d = 1) (h : rootOK F root pc sh) :
    (∀ c ∈ (Crawl.step F ⟨root, d, pc⟩ sh).spawned, c.depth = 0 ∧ c.pc = .entry) ∧
    (match (Crawl.step F ⟨root, d, pc⟩ sh).next with
     | some b1 => b1.url = root ∧ b1.depth = 1 ∧
         rootOK F root b1.pc (Crawl.step F ⟨root, d, pc⟩ sh).sh
     | none => rootOK F root .ret (Crawl.step F ⟨root, d, pc⟩ sh).sh) := by
  subst hd
  obtain ⟨hr, hf, hs⟩ := h
  cases pc with
  | entry => simp [Crawl.step]; exact ⟨hr, hf, hs⟩
  | check =>
    have hx : sh.repo.urlExists root = false := by
      cases hx : sh.repo.urlExists root with
      | false => rfl
      | true =>
        rw [urlExists_iff, hr] at hx
        simp [repoAt] at hx
    simp [Crawl.step, hx]
    exact ⟨hr, hf, hs⟩
  | save =>
    simp only [Crawl.step]
    refine ⟨by simp, trivial, trivial, ?_, hf, hs⟩
    simp only [repoAt] at hr
    simp [URLRepo.save, hr, repoAt]
  | fetch =>
    simp only [fetchedAt] at hf
    simp only [Crawl.step]
    split
    · rename_i e heq
      refine ⟨by simp, rfl, rfl, hr, by simp [hf, fetchedAt], ?_⟩
      simpa [pending, links, heq] using hs
    · rename_i body urls heq
      refine ⟨by simp, rfl, rfl, hr, by simp [hf, fetchedAt], ?_⟩
      simpa [pending, links, heq] using hs
  | failed e =>
    simp only [Crawl.step]
    exact ⟨by simp, trivial, trivial, hr, hf, hs⟩
  | found body urls =>
    simp only [Crawl.step]
    exact ⟨by simp, trivial, trivial, rootOK_loopPC hr hf hs⟩
  | add u rest =>
    simp only [Crawl.step]
    exact ⟨by simp, trivial, trivial, hr, hf, hs⟩
  | go u rest =>
    simp only [Crawl.step]
    refine ⟨by simp, trivial, trivial, rootOK_loopPC hr hf ?_⟩
    simpa [pending] using hs
  | ret =>
    simp only [Crawl.step]
    exact ⟨by simp, hr, hf, hs⟩

/-- The steps of a call with depth zero: the depth test, then the return. -/
theorem zero_step (F : Fetcher) {c : Branch} (sh : Shared)
    (hd : c.depth = 0) (hpc : c.pc = .entry ∨ c.pc = .ret) :
    (Crawl.step F c sh).spawned = [] ∧
    (Crawl.step F c sh).sh.repo = sh.repo ∧
    (Crawl.step F c sh).sh.fetched = sh.fetched ∧
    (Crawl.step F c sh).sh.spawns = sh.spawns ∧
    (Crawl.step F c sh).sh.out = sh.out ∧
    ∀ c1 ∈ (Crawl.step F c sh).next.toList, c1.depth = 0 ∧ (c1.pc = .entry ∨ c1.pc = .ret) := by
  rcases c with ⟨url, d, pc⟩
  simp only at hd hpc
  subst hd
  rcases hpc with rfl | rfl <;> simp [Crawl.step]

theorem DepthOneInv_init (F : Fetcher) (root : String) :
    DepthOneInv F root (init ⟨[]⟩ root 1) := by
  simp [DepthOneInv, init, rootOK, repoAt, fetchedAt, pending]

theorem DepthOneInv_step {F : Fetcher} {root : String} {s s1 : State} {i : Nat}
    (hI : DepthOneInv F root s) (h : step F s i = some s1) : DepthOneInv F root s1 := by
  obtain ⟨hpool, hmain⟩ := hI
  obtain ⟨_, hm, hc⟩ := step_cases h
  rcases hc with ⟨u, d, hu, rfl⟩ | ⟨hwait, hz, rfl⟩ | ⟨b, hb, rfl⟩ | ⟨pre, b, post, hp, rfl⟩
  · rw [hu] at hmain
    obtain ⟨rfl, rfl, hr⟩ := hmain
    exact ⟨hpool, rfl, rfl, hr⟩
  · rw [hwait] at hmain
    exact ⟨hpool, hmain⟩
  · rw [hb] at hmain
    obtain ⟨hurl, hd, hr⟩ := hmain
    rcases b with ⟨url, d, pc⟩
    simp only at hurl hd hr
    subst hurl
    obtain ⟨h1, h2⟩ := rootOK_step (F := F) hd hr
    refine ⟨?_, ?_⟩
    · intro c hc
      simp only [List.mem_append] at hc
      rcases hc with hc | hc
      · exact hpool c hc
      · exact ⟨(h1 c hc).1, Or.inl (h1 c hc).2⟩
    · cases hn : (Crawl.step F ⟨url, d, pc⟩ s.sh).next with
      | none => simpa [hn] using h2
      | some b1 => simpa [hn] using h2
  · have hbp := hpool b (by simp [hp])
    obtain ⟨z1, z2, z3, z4, _, z6⟩ := zero_step F s.sh hbp.1 hbp.2
    have hro : ∀ pc, rootOK F root pc s.sh → rootOK F root pc (Crawl.step F b s.sh).sh := by
      intro pc hr
      simpa [rootOK, z2, z3, z4] using hr
    refine ⟨?_, ?_⟩
    · intro c hc
      simp only [List.mem_append] at hc
      rcases hc with ((hc | hc) | hc) | hc
      · exact hpool c (by simp [hp, hc])
      · exact z6 c hc
      · exact hpool c (by simp [hp, hc])
      · simp [z1] at hc
    · cases hmm : s.main with
      | start u d =>
        rw [hmm] at hmain
        exact ⟨hmain.1, hmain.2.1, hro _ hmain.2.2⟩
      | crawl b0 =>
        rw [hmm] at hmain
        exact ⟨hmain.1, hmain.2.1, hro _ hmain.2.2⟩
      | wait =>
        rw [hmm] at hmain
        exact hro _ hmain
      | exit => exact absurd hmm hm

theorem DepthOneInv_run {F : Fetcher} {root : String} {sched : List Nat} {s : State}
    (h : run F (init ⟨[]⟩ root 1) sched = some s) : DepthOneInv F root s :=
  run_inv (DepthOneInv F root) (fun _ _ _ hI hs => DepthOneInv_step hI hs) sched _ _
    (DepthOneInv_init F root) h

/-! ## A call with no depth left -/

theorem ExhaustedInv_step {F : Fetcher} {r : URLRepo} {url : String} {depth : Int}
    (hd : depth ≤ 0) {s s1 : State} {i : Nat}
    (hI : ExhaustedInv r url depth s) (h : step F s i = some s1) :
    ExhaustedInv r url depth s1 := by
  obtain ⟨hpool, hr, hf, hs, ho, hmain⟩ := hI
  obtain ⟨_, hm, hc⟩ := step_cases h
  rcases hc with ⟨u, d, hu, rfl⟩ | ⟨hwait, hz, rfl⟩ | ⟨b, hb, rfl⟩ | ⟨pre, b, post, hp, rfl⟩
  · rw [hu] at hmain
    simp at hmain
    obtain ⟨rfl, rfl⟩ := hmain
    exact ⟨hpool, hr, hf, hs, ho, Or.inr (Or.inl rfl)⟩
  · exact ⟨hpool, hr, hf, hs, ho, Or.inr (Or.inr (Or.inr (Or.inr rfl)))⟩
  · rw [hb] at hmain
    simp at hmain
    rcases hmain with rfl | rfl
    · simp only [Crawl.step, hd, if_true]
      exact ⟨by simp [hpool], hr, hf, hs, ho, Or.inr (Or.inr (Or.inl rfl))⟩
    · simp only [Crawl.step]
      exact ⟨by simp [hpool], hr, hf, hs, ho, Or.inr (Or.inr (Or.inr (Or.inl rfl)))⟩
  · simp [hpool] at hp

/-! ## The repository only grows -/

theorem crawl_step_repo (F : Fetcher) (b : Branch) (sh : Shared) :
    sh.repo.urls <+: (Crawl.step F b sh).sh.repo.urls := by
  rcases b with ⟨url, d, pc⟩
  cases pc <;> simp only [Crawl.step] <;> (try split) <;>
    simp [URLRepo.save, List.prefix_refl]

theorem step_repo {F : Fetcher} {s s1 : State} {i : Nat} (h : step F s i = some s1) :
    s.sh.repo.urls <+: s1.sh.repo.urls := by
  obtain ⟨_, _, hc⟩ := step_live h
  rcases hc with ⟨u, d, hu, rfl⟩ | ⟨hwait, hz, rfl⟩ | ⟨pre, b, post, hls, hl1, hsh, hmain⟩
  · exact List.prefix_refl _
  · exact List.prefix_refl _
  · rw [hsh]
    exact crawl_step_repo F b s.sh

theorem run_repo {F : Fetcher} :
    ∀ (sched : List Nat) (s s1 : State), run F s sched = some s1 →
      s.sh.repo.urls <+: s1.sh.repo.urls := by
  intro sched
  induction sched with
  | nil =>
    intro s s1 h
    simp [run] at h
    rw [h]
  | cons i rest ih =>
    intro s s1 h
    simp only [run] at h
    cases hs : step F s i with
    | none => simp [hs] at h
    | some s2 =>
      simp [hs] at h
      exact (step_repo hs).trans (ih s2 s1 h)

/-! ## Failure isolation -/

theorem failB_loopPC (X e url : String) (d : Int) (urls : List String) :
    failB X e ⟨url, d, loopPC urls⟩ = ⟨url, d, loopPC urls⟩ := by
  cases urls <;> rfl

theorem emptyAt_loopPC (X url : String) (d : Int) (urls : List String) :
    emptyAt X ⟨url, d, loopPC urls⟩ := by
  intro _ body us h
  cases urls <;> simp [loopPC] at h

/-- One statement of `Crawl` under the failing fetcher is the image of the same
statement under the fetcher with the empty page. -/
theorem crawl_step_fail {F : Fetcher} {X e : String} (body : String)
    (hF : F X = .error e) {b : Branch} (hb : emptyAt X b) (sh : Shared) :
    Crawl.step F (failB X e b) (failSh X e sh)
        = failO X e (Crawl.step (withEmptyPage F X body) b sh) ∧
    ∀ c ∈ (Crawl.step (withEmptyPage F X body) b sh).next.toList
            ++ (Crawl.step (withEmptyPage F X body) b sh).spawned, emptyAt X c := by
  rcases b with ⟨url, d, pc⟩
  cases pc with
  | entry =>
    by_cases hd : d ≤ 0 <;>
      simp [Crawl.step, failB, failSh, failO, hd, emptyAt]
  | check =>
    cases hx : sh.repo.urlExists url <;>
      simp [Crawl.step, failB, failSh, failO, hx, emptyAt]
  | save => simp [Crawl.step, failB, failSh, failO, emptyAt]
  | fetch =>
    by_cases hX : url = X
    · subst hX
      simp [Crawl.step, failB, failSh, failO, emptyAt, withEmptyPage, hF]
    · simp only [Crawl.step, failB, withEmptyPage, hX, if_false]
      split <;> simp [failSh, failO, failB, hX, emptyAt]
  | failed m => simp [Crawl.step, failB, failSh, failO, failE, emptyAt]
  | found bd urls =>
    by_cases hX : url = X
    · subst hX
      have hu : urls = [] := hb rfl bd urls rfl
      subst hu
      simp [Crawl.step, failB, failSh, failO, failE, emptyAt, loopPC]
    · refine ⟨?_, ?_⟩
      · have hl : failB X e ⟨url, d, .found bd urls⟩ = ⟨url, d, .found bd urls⟩ := by
          simp [failB, hX]
        rw [hl]
        simp [Crawl.step, failSh, failO, failE, hX, failB_loopPC]
      · simp only [Crawl.step, Option.toList, List.append_nil, List.mem_singleton, forall_eq]
        exact emptyAt_loopPC X url d urls
  | add u rest => simp [Crawl.step, failB, failSh, failO, emptyAt]
  | go u rest =>
    refine ⟨?_, ?_⟩
    · have hl : failB X e ⟨url, d, .go u rest⟩ = ⟨url, d, .go u rest⟩ := rfl
      have hc : failB X e ⟨u, d - 1, .entry⟩ = ⟨u, d - 1, .entry⟩ := rfl
      rw [hl]
      simp [Crawl.step, failSh, failO, failB_loopPC, hc]
    · intro c hc
      simp only [Crawl.step, Option.toList, List.cons_append, List.nil_append,
        List.mem_cons, List.not_mem_nil, or_false] at hc
      rcases hc with rfl | rfl
      · exact emptyAt_loopPC X url d rest
      · simp [emptyAt]
  | ret => simp [Crawl.step, failB, failSh, failO, emptyAt]

theorem map_eraseIdx_comm (f : Branch → Branch) (l : List Branch) (k : Nat) :
    (l.map f).eraseIdx k = (l.eraseIdx k).map f := by
  induction l generalizing k with
  | nil => simp
  | cons a l ih =>
    cases k with
    | zero => simp
    | succ k => simp [ih]

theorem updPool_map (f : Branch → Branch) (X e : String) (pool : List Branch) (k : Nat)
    (o : Outcome) (hf : f = failB X e) :
    updPool (pool.map f) k (failO X e o) = (updPool pool k o).map f := by
  subst hf
  cases hn : o.next <;> simp [updPool, failO, hn, List.map_set, map_eraseIdx_comm]

/-- One step of the program under the failing fetcher is the image of the same
step under the fetcher with the empty page. -/
theorem step_fail {F : Fetcher} {X e : String} (body : String) (hF : F X = .error e)
    {s : State} (hs : ∀ b ∈ live s, emptyAt X b) (i : Nat) :
    step F (failAt X e s) i = (step (withEmptyPage F X body) s i).map (failAt X e) := by
  have hguard : ((failAt X e s).sh.panicked = true ∨ (failAt X e s).main = .exit)
      ↔ (s.sh.panicked = true ∨ s.main = .exit) := by
    cases hm : s.main <;> simp [failAt, failSh, failMain, hm]
  by_cases hg : s.sh.panicked = true ∨ s.main = .exit
  · simp only [step, hguard, hg, if_true, Option.map_none']
  · simp only [step, hguard, hg, if_false]
    cases i with
    | zero =>
      cases hm : s.main with
      | start u d =>
        simp [stepMain, failAt, failMain, hm, failSh, failB]
      | crawl b =>
        have hb : emptyAt X b := hs b (by simp [live, hm])
        have h1 := (crawl_step_fail body hF hb s.sh).1
        simp only [stepMain, failAt, failMain, hm, Option.map_some', Option.some.injEq]
        rw [h1]
        cases hn : (Crawl.step (withEmptyPage F X body) b s.sh).next <;>
          simp [failO, hn, failMain]
      | wait =>
        by_cases hw : s.sh.wg = 0 <;>
          simp [stepMain, failAt, failMain, hm, failSh, hw]
      | exit => simp [hm] at hg
    | succ k =>
      simp only [failAt, List.getElem?_map]
      cases hk : s.pool[k]? with
      | none => simp
      | some b =>
        have hb : emptyAt X b := by
          obtain ⟨pre, post, hp, _⟩ := pool_split hk
          exact hs b (by simp [live, hp])
        have h1 := (crawl_step_fail body hF hb s.sh).1
        simp only [Option.map_some', Option.some.injEq]
        rw [h1, updPool_map (failB X e) X e s.pool k _ rfl]
        simp [failO, failAt]

theorem emptyAt_step {F : Fetcher} {X e : String} (body : String) (hF : F X = .error e)
    {s s1 : State} {i : Nat} (hs : ∀ b ∈ live s, emptyAt X b)
    (h : step (withEmptyPage F X body) s i = some s1) : ∀ b ∈ live s1, emptyAt X b := by
  obtain ⟨_, hm, hc⟩ := step_live h
  rcases hc with ⟨u, d, hu, rfl⟩ | ⟨hwait, hz, rfl⟩ | ⟨pre, b, post, hls, hl1, hsh, hmain⟩
  · intro b hb
    simp only [live, List.singleton_append, List.mem_cons] at hb
    rcases hb with rfl | hb
    · simp [emptyAt]
    · exact hs b (by simp [live, hu, hb])
  · intro b hb
    exact hs b (by simpa [live, hwait] using hb)
  · have hb : emptyAt X b := hs b (by simp [hls])
    have h2 := (crawl_step_fail body hF hb s.sh).2
    intro c hc
    rw [hl1] at hc
    simp only [List.mem_append] at hc
    rcases hc with ((hc | hc) | hc) | hc
    · exact hs c (by simp [hls, hc])
    · exact h2 c (by simp [hc])
    · exact hs c (by simp [hls, hc])
    · exact h2 c (by simp [hc])

/-- Every execution under the failing fetcher is the image of the execution
with the same schedule under the fetcher with the empty page. -/
theorem run_fail {F : Fetcher} {X e : String} (body : String) (hF : F X = .error e) :
    ∀ (sched : List Nat) (s : State), (∀ b ∈ live s, emptyAt X b) →
      run F (failAt X e s) sched
        = (run (withEmptyPage F X body) s sched).map (failAt X e) := by
  intro sched
  induction sched with
  | nil => intro s _; simp [run]
  | cons i rest ih =>
    intro s hs
    simp only [run]
    rw [step_fail body hF hs i]
    cases h1 : step (withEmptyPage F X body) s i with
    | none => simp
    | some s1 =>
      simp only [Option.map_some', Option.some_bind]
      exact ih s1 (emptyAt_step body hF hs h1)

theorem failAt_init (X e : String) (r : URLRepo) (url : String) (depth : Int) :
    failAt X e (init r url depth) = init r url depth := by
  simp [failAt, init, failMain, failSh]

/-! ## Further step facts -/

theorem crawl_step_wg (F : Fetcher) (b : Branch) (sh : Shared) :
    (Crawl.step F b sh).sh.wg = sh.wg + wgDelta b.pc := by
  rcases b with ⟨url, d, pc⟩
  cases pc <;> simp only [Crawl.step] <;> (try split) <;> simp [wgDelta]
  omega

theorem crawl_step_spawns (F : Fetcher) (b : Branch) (sh : Shared) :
    (Crawl.step F b sh).sh.spawns.length ≤ sh.spawns.length + 1 := by
  rcases b with ⟨url, d, pc⟩
  cases pc <;> simp only [Crawl.step] <;> (try split) <;> simp

theorem spawns_run {F : Fetcher} :
    ∀ (sched : List Nat) (s s1 : State), run F s sched = some s1 →
      s1.sh.spawns.length ≤ s.sh.spawns.length + sched.length := by
  intro sched
  induction sched with
  | nil =>
    intro s s1 h
    simp [run] at h
    simp [h]
  | cons i rest ih =>
    intro s s1 h
    simp only [run] at h
    cases hs : step F s i with
    | none => simp [hs] at h
    | some s2 =>
      simp [hs] at h
      have h1 := ih s2 s1 h
      have h2 : s2.sh.spawns.length ≤ s.sh.spawns.length + 1 := by
        obtain ⟨_, _, hc⟩ := step_live hs
        rcases hc with ⟨u, d, hu, rfl⟩ | ⟨hwait, hz, rfl⟩ | ⟨pre, b, post, hls, hl1, hsh, hmain⟩
        · simp
        · simp
        · rw [hsh]
          exact crawl_step_spawns F b s.sh
      simp only [List.length_cons]
      omega

/-- From every state of a crawl the program can be run to the end of `main`. -/
theorem run_to_exit {F : Fetcher} {s : State} (hI : WgInv s) :
    ∃ more s1, run F s more = some s1 ∧ s1.main = .exit ∧ s1.pool = [] ∧ s1.sh.wg = 0 ∧
      s1.sh.panicked = false := by
  obtain ⟨⟨sched, hr⟩, he⟩ := runFuel_exit (F := F) (budget F s) s hI (le_refl _)
  have hI1 : WgInv (runFuel F (budget F s) s) :=
    run_inv WgInv (fun _ _ _ hI hs => WgInv_step hI hs) sched _ _ hI hr
  obtain ⟨hp, hw, hl⟩ := hI1
  have hl0 := hl (Or.inl he)
  have hpool : (runFuel F (budget F s) s).pool = [] := by
    simpa [live, he] using hl0
  refine ⟨sched, _, hr, he, hpool, ?_, hp⟩
  rw [hw]
  simp [inFlight, hl0]

/-! ## The claims -/

/-- C1, violated by the code: on the graph `A -> {B, C}`, `B -> {A, C}`,
`C -> {A}` the crawl `Crawl("A", 3)` from an empty repository has a complete
execution that hands `C` to `Fetch` twice. -/
theorem race_fetches_twice :
    run graphABC.Fetch (init ⟨[]⟩ "A" 3) raceSchedule = some raceEnd ∧
    raceEnd.main = .exit ∧ raceEnd.sh.fetched = ["A", "B", "C", "C"] ∧
    ¬ raceEnd.sh.fetched.Nodup := by
  decide

/-- C2, violated by the code: the test `urlExists` and the insertion `save` are
two steps, and there is a reachable state in which two concurrent calls for `C`
have both seen `urlExists("C")` false and both stand before `save`; from there
both go on to `Fetch`. -/
theorem claim_not_atomic :
    run graphABC.Fetch (init ⟨[]⟩ "A" 3) bothPassCheck = some checkState ∧
    checkState.pool = [⟨"C", 2, .save⟩, ⟨"A", 1, .entry⟩, ⟨"C", 1, .save⟩] ∧
    checkState.sh.repo.urlExists "C" = false ∧
    (run graphABC.Fetch checkState [1, 3, 1, 3]).map (fun s => s.sh.fetched)
      = some ["A", "B", "C", "C"] := by
  decide

/-- C3 as stated fails: in the graph `A -> {B, C}`, `B -> {A, C}`, `C -> {A}`
the url `B` is at distance exactly 1 from `A`, and the complete crawl
`Crawl("A", 1)` does not fetch it. -/
theorem distance_maxDepth_not_fetched :
    hasDist graphABC.Fetch "A" "B" 1 ∧
    run graphABC.Fetch (init ⟨[]⟩ "A" 1) depthOneSchedule = some depthOneEnd ∧
    depthOneEnd.main = .exit ∧ "B" ∉ depthOneEnd.sh.fetched := by
  decide

/-- C3, amended: in every execution of `Crawl(root, maxDepth)` from an empty
repository every url handed to `Fetch` is reachable from the root by a link
path shorter than `maxDepth`; so a url whose shortest link distance `d` from
the root is `maxDepth` or more (exactly `maxDepth`, `maxDepth + 1`, ...) is
never handed to `Fetch`. -/
theorem fetch_depth_bound (F : Fetcher) (root : String) (maxDepth : Int)
    (sched : List Nat) (s : State)
    (hrun : run F (init ⟨[]⟩ root maxDepth) sched = some s) :
    (∀ x ∈ s.sh.fetched, ∃ k : Nat, (k : Int) < maxDepth ∧ x ∈ level F root k) ∧
    (∀ (x : String) (d : Nat), hasDist F root x d → maxDepth ≤ (d : Int) →
      x ∉ s.sh.fetched) := by
  have hnear := fetched_near_run hrun
  refine ⟨hnear, ?_⟩
  intro x d hd hle hx
  obtain ⟨k, hk, hlev⟩ := hnear x hx
  have hkd : k < d := by omega
  exact hd.2 k hkd hlev

theorem fetch_depth_bound_witness :
    run graphABC.Fetch (init ⟨[]⟩ "A" 1) depthOneSchedule = some depthOneEnd ∧
    hasDist graphABC.Fetch "A" "B" 1 ∧ "B" ∉ depthOneEnd.sh.fetched :=
  have hrun : run graphABC.Fetch (init ⟨[]⟩ "A" 1) depthOneSchedule = some depthOneEnd := by
    decide
  ⟨hrun, by decide,
   (fetch_depth_bound graphABC.Fetch "A" 1 depthOneSchedule depthOneEnd hrun).2 "B" 1
     (by decide) (by decide)⟩

/-- C4: in every execution of `Crawl(root, 1)` from an empty repository only the
root is ever handed to `Fetch` or recorded, at most once; every other call has
depth 0; and when `main` returns, the root has been fetched and recorded once
and one call with depth 0 has been spawned for each link of the root, in order.
Such a complete execution exists. -/
theorem crawl_depth_one (F : Fetcher) (root : String) :
    (∀ sched s, run F (init ⟨[]⟩ root 1) sched = some s →
      (s.sh.fetched = [] ∨ s.sh.fetched = [root]) ∧
      (s.sh.repo.urls = [] ∨ s.sh.repo.urls = [root]) ∧
      (∀ c ∈ s.pool, c.depth = 0) ∧
      (s.main = .exit →
        s.sh.fetched = [root] ∧ s.sh.repo.urls = [root] ∧
        s.sh.spawns = (links F root).map (fun u => (u, (0 : Int))))) ∧
    (∃ sched s, run F (init ⟨[]⟩ root 1) sched = some s ∧ s.main = .exit) := by
  refine ⟨?_, ?_⟩
  · intro sched s hrun
    obtain ⟨hpool, hmain⟩ := DepthOneInv_run hrun
    refine ⟨?_, ?_, fun c hc => (hpool c hc).1, ?_⟩
    · cases hm : s.main with
      | start u d =>
        rw [hm] at hmain
        exact Or.inl hmain.2.2.2.1
      | crawl b =>
        rw [hm] at hmain
        have := hmain.2.2.2.1
        rcases b with ⟨url, d, pc⟩
        cases pc <;> simp [fetchedAt] at this <;> simp [this]
      | wait =>
        rw [hm] at hmain
        exact Or.inr hmain.2.1
      | exit =>
        rw [hm] at hmain
        exact Or.inr hmain.2.1
    · cases hm : s.main with
      | start u d =>
        rw [hm] at hmain
        exact Or.inl hmain.2.2.1
      | crawl b =>
        rw [hm] at hmain
        have := hmain.2.2.1
        rcases b with ⟨url, d, pc⟩
        cases pc <;> simp [repoAt] at this <;> simp [this]
      | wait =>
        rw [hm] at hmain
        exact Or.inr hmain.1
      | exit =>
        rw [hm] at hmain
        exact Or.inr hmain.1
    · intro he
      rw [he] at hmain
      obtain ⟨h1, h2, h3⟩ := hmain
      exact ⟨h2, h1, by simpa [pending] using h3⟩
  · obtain ⟨more, s1, hr, he, _⟩ :=
      run_to_exit (F := F) (WgInv_init ⟨[]⟩ root 1)
    exact ⟨more, s1, hr, he⟩

theorem crawl_depth_one_witness :
    run graphABC.Fetch (init ⟨[]⟩ "A" 1) depthOneSchedule = some depthOneEnd ∧
    depthOneEnd.sh.fetched = ["A"] ∧ depthOneEnd.sh.repo.urls = ["A"] ∧
    depthOneEnd.sh.spawns = [("B", 0), ("C", 0)] :=
  have hrun : run graphABC.Fetch (init ⟨[]⟩ "A" 1) depthOneSchedule = some depthOneEnd := by
    decide
  have h := ((crawl_depth_one graphABC.Fetch "A").1 depthOneSchedule depthOneEnd hrun).2.2.2
    (by decide)
  ⟨hrun, h.1, h.2.1, h.2.2⟩

/-- C5: the traversal started by `Crawl(root, maxDepth)` finishes, for every
fetcher, root and depth. The budget, defined by recursion on the depth, bounds
the length of every execution and the number of calls spawned; a state other
than the end of `main` always has a goroutine that can move; and every
execution can be continued to the end of `main`, where no call is left. -/
theorem crawl_terminates (F : Fetcher) (r : URLRepo) (root : String) (maxDepth : Int) :
    (∀ sched s, run F (init r root maxDepth) sched = some s →
      sched.length + budget F s ≤ budget F (init r root maxDepth) ∧
      s.sh.spawns.length ≤ budget F (init r root maxDepth) ∧
      (s.main ≠ .exit → ∃ i s1, step F s i = some s1) ∧
      (∃ more s1, run F s more = some s1 ∧ s1.main = .exit ∧ s1.pool = [])) ∧
    (runFuel F (budget F (init r root maxDepth)) (init r root maxDepth)).main = .exit := by
  refine ⟨?_, ?_⟩
  · intro sched s hrun
    have hb := budget_run sched _ _ hrun
    have hsp := spawns_run sched _ _ hrun
    have hI : WgInv s := WgInv_run hrun
    refine ⟨hb, ?_, ?_, ?_⟩
    · simp only [init, List.length_nil, Nat.zero_add] at hsp
      omega
    · intro hm
      obtain ⟨s1, hs⟩ := pick_enabled (F := F) hI hm
      exact ⟨pick s, s1, hs⟩
    · obtain ⟨more, s1, hr, he, hp, _⟩ := run_to_exit (F := F) hI
      exact ⟨more, s1, hr, he, hp⟩
  · exact (runFuel_exit (F := F) _ _ (WgInv_init r root maxDepth) (le_refl _)).2

theorem crawl_terminates_witness :
    raceSchedule.length + budget graphABC.Fetch raceEnd
      ≤ budget graphABC.Fetch (init ⟨[]⟩ "A" 3) ∧
    budget graphABC.Fetch (init ⟨[]⟩ "A" 3) = 68 ∧
    (runFuel graphABC.Fetch 68 (init ⟨[]⟩ "A" 3)).main = .exit :=
  have h := crawl_terminates graphABC.Fetch ⟨[]⟩ "A" 3
  ⟨(h.1 raceSchedule raceEnd (by decide)).1, by decide, by decide⟩

/-- C6: a call `Crawl(url, depth)` with `depth <= 0` only tests the depth and
returns: its two steps leave the repository, the fetch history and the set of
goroutines as they are, whatever the repository holds; run from `main` it
fetches nothing, spawns nothing and leaves the repository unchanged in every
execution, and it ends after four steps. And a call spawned by a call with
depth `d` starts at the entry of `Crawl` with depth exactly `d - 1`. -/
theorem depth_exhausted_noop (F : Fetcher) (r : URLRepo) (url : String) (depth : Int)
    (hd : depth ≤ 0) :
    (∀ sh : Shared,
      Crawl.step F ⟨url, depth, .entry⟩ sh = ⟨some ⟨url, depth, .ret⟩, sh, []⟩ ∧
      Crawl.step F ⟨url, depth, .ret⟩ sh
        = ⟨none, { sh with wg := sh.wg - 1, panicked := decide (sh.wg - 1 < 0) }, []⟩) ∧
    (∀ sched s, run F (init r url depth) sched = some s →
      s.sh.fetched = [] ∧ s.sh.spawns = [] ∧ s.pool = [] ∧ s.sh.repo = r ∧ s.sh.out = []) ∧
    run F (init r url depth) [0, 0, 0, 0] = some { init r url depth with main := .exit } ∧
    (∀ (b : Branch) (sh : Shared), ∀ c ∈ (Crawl.step F b sh).spawned,
      c.depth = b.depth - 1 ∧ c.pc = .entry) := by
  refine ⟨?_, ?_, ?_, ?_⟩
  · intro sh
    simp [Crawl.step, hd]
  · intro sched s hrun
    have hI : ExhaustedInv r url depth s :=
      run_inv (ExhaustedInv r url depth) (fun _ _ _ hI hs => ExhaustedInv_step hd hI hs)
        sched _ _ (by simp [ExhaustedInv, init]) hrun
    obtain ⟨h1, h2, h3, h4, h5, _⟩ := hI
    exact ⟨h3, h4, h1, h2, h5⟩
  · simp [run, step, stepMain, init, Crawl.step, hd]
  · intro b sh c hc
    rcases b with ⟨u, d, pc⟩
    cases pc <;> simp only [Crawl.step] at hc <;> (try split at hc) <;> simp at hc
    subst hc
    exact ⟨rfl, rfl⟩

theorem depth_exhausted_noop_witness :
    (0 : Int) ≤ 0 ∧
    run graphABC.Fetch (init ⟨["B"]⟩ "A" 0) [0, 0, 0, 0]
      = some { init ⟨["B"]⟩ "A" 0 with main := .exit } :=
  ⟨by decide, (depth_exhausted_noop graphABC.Fetch ⟨["B"]⟩ "A" 0 (by decide)).2.2.1⟩

/-- C7: when `Fetch` fails for `X` with error `e`, the call for `X` prints the
error once, spawns nothing and returns; every execution is, step for step, the
execution under the fetcher in which `X` is a page without links, except for
the reports about `X`: same urls handed to `Fetch`, same repository, same
counter, same calls spawned; and the crawl can always be run to the end of
`main`. -/
theorem fetch_failure_isolated (F : Fetcher) (X e body : String) (hF : F X = .error e)
    (r : URLRepo) (root : String) (depth : Int) :
    (∀ (d : Int) (sh : Shared),
      Crawl.step F ⟨X, d, .fetch⟩ sh
        = ⟨some ⟨X, d, .failed e⟩, { sh with fetched := sh.fetched ++ [X] }, []⟩ ∧
      Crawl.step F ⟨X, d, .failed e⟩ sh
        = ⟨some ⟨X, d, .ret⟩, { sh with out := sh.out ++ [.err e] }, []⟩) ∧
    (∀ sched, run F (init r root depth) sched
        = (run (withEmptyPage F X body) (init r root depth) sched).map (failAt X e)) ∧
    (∀ sched s, run F (init r root depth) sched = some s →
      ∃ s0, run (withEmptyPage F X body) (init r root depth) sched = some s0 ∧
        s.sh.fetched = s0.sh.fetched ∧ s.sh.repo = s0.sh.repo ∧ s.sh.wg = s0.sh.wg ∧
        s.sh.spawns = s0.sh.spawns ∧ s.pool.length = s0.pool.length ∧
        (s.main = .exit ↔ s0.main = .exit) ∧
        (∃ more s1, run F s more = some s1 ∧ s1.main = .exit ∧ s1.pool = [])) := by
  have hsim : ∀ sched, run F (init r root depth) sched
      = (run (withEmptyPage F X body) (init r root depth) sched).map (failAt X e) := by
    intro sched
    have := run_fail body hF sched (init r root depth) (by simp [init, live])
    rwa [failAt_init] at this
  refine ⟨?_, hsim, ?_⟩
  · intro d sh
    simp [Crawl.step, hF]
  · intro sched s hrun
    have h1 := hsim sched
    rw [hrun] at h1
    cases h0 : run (withEmptyPage F X body) (init r root depth) sched with
    | none => simp [h0] at h1
    | some s0 =>
      simp only [h0, Option.map_some', Option.some.injEq] at h1
      subst h1
      refine ⟨s0, rfl, rfl, rfl, rfl, rfl, by simp [failAt], ?_, ?_⟩
      · cases hm : s0.main <;> simp [failAt, failMain, hm]
      · obtain ⟨more, s1, hr, he, hp, _⟩ := run_to_exit (F := F) (WgInv_run hrun)
        exact ⟨more, s1, hr, he, hp⟩

theorem fetch_failure_isolated_witness :
    graphAB.Fetch "C" = .error "not found: C" ∧
    run graphAB.Fetch (init ⟨[]⟩ "A" 2) depthTwoSchedule = some depthTwoEnd ∧
    depthTwoEnd.sh.out = [.found "A" "a", .found "B" "b", .err "not found: C"] ∧
    (∃ s0, run (withEmptyPage graphAB.Fetch "C" "c") (init ⟨[]⟩ "A" 2) depthTwoSchedule
        = some s0 ∧ depthTwoEnd.sh.fetched = s0.sh.fetched ∧
        depthTwoEnd.sh.repo = s0.sh.repo) :=
  have hrun : run graphAB.Fetch (init ⟨[]⟩ "A" 2) depthTwoSchedule = some depthTwoEnd := by
    decide
  have hC : graphAB.Fetch "C" = .error "not found: C" := by
    rfl
  have h := (fetch_failure_isolated graphAB.Fetch "C" "not found: C" "c" hC
    ⟨[]⟩ "A" 2).2.2 depthTwoSchedule depthTwoEnd hrun
  ⟨hC, hrun, by decide,
    h.elim (fun s0 hs => ⟨s0, hs.1, hs.2.1, hs.2.2.1⟩)⟩

/-- C8: the counter is incremented by `main` for the root call and by `Crawl`
at `wg.Add(1)` for each child, is decremented by the deferred `wg.Done()` when a
call returns, and no other statement changes it. In every reachable state there
has been no panic, the counter equals the number of branches registered and
not yet done (the live calls, plus those whose `wg.Add(1)` has run and whose
`go` has not), it is zero exactly when no call is live, and once the root call
has been entered it is zero exactly when `main` stands at or after `wg.Wait()`
with no goroutine left; `main` gets past `wg.Wait()` only then. -/
theorem waitgroup_counts_branches (F : Fetcher) (r : URLRepo) (root : String)
    (depth : Int) (sched : List Nat) (s : State)
    (hrun : run F (init r root depth) sched = some s) :
    (∀ (b : Branch) (sh : Shared), (Crawl.step F b sh).sh.wg = sh.wg + wgDelta b.pc) ∧
    (stepMain F (init r root depth)).map (fun s1 => (s1.sh.wg, s1.main))
      = some (1, .crawl ⟨root, depth, .entry⟩) ∧
    s.sh.panicked = false ∧
    s.sh.wg = (inFlight s : Int) ∧
    (s.sh.wg = 0 ↔ live s = []) ∧
    ((∀ u d, s.main ≠ .start u d) →
      (s.sh.wg = 0 ↔ (s.main = .wait ∨ s.main = .exit) ∧ s.pool = [])) ∧
    (s.main = .exit → s.sh.wg = 0 ∧ s.pool = []) := by
  obtain ⟨hp, hw, hl⟩ := WgInv_run hrun
  have hz : s.sh.wg = 0 ↔ live s = [] := by
    rw [hw]
    constructor
    · intro h
      have : (live s).length = 0 := by
        simp only [inFlight] at h
        omega
      exact List.length_eq_zero.mp this
    · intro h
      simp [inFlight, h]
  refine ⟨crawl_step_wg F, by simp [stepMain, init], hp, hw, hz, ?_, ?_⟩
  · intro hns
    rw [hz]
    cases hm : s.main with
    | start u d => exact absurd hm (hns u d)
    | crawl b => simp [live, hm]
    | wait => simp [live, hm]
    | exit => simp [live, hm]
  · intro he
    have hl0 := hl (Or.inl he)
    exact ⟨hz.mpr hl0, by simpa [live, he] using hl0⟩

theorem waitgroup_counts_branches_witness :
    run graphABC.Fetch (init ⟨[]⟩ "A" 3) bothPassCheck = some checkState ∧
    checkState.sh.wg = 3 ∧ checkState.sh.wg = (inFlight checkState : Int) :=
  have hrun : run graphABC.Fetch (init ⟨[]⟩ "A" 3) bothPassCheck = some checkState := by
    decide
  have h := waitgroup_counts_branches graphABC.Fetch ⟨[]⟩ "A" 3 bothPassCheck checkState hrun
  ⟨hrun, by decide, h.2.2.2.1⟩

/-- C9: `save` keeps every url that `urlExists` reported, `urlExists(y)` holds
after `save(y)`, the step of `Crawl` that calls `urlExists` changes nothing that
is shared, and along every execution from every state the repository only grows
at its end: a url present at one point is present at every later point. -/
theorem repo_append_only (F : Fetcher) (u : URLRepo) (x y : String)
    (s s1 : State) (sched : List Nat) :
    (u.urlExists x = true → (u.save y).urlExists x = true) ∧
    (u.save y).urlExists y = true ∧
    (∀ (url : String) (d : Int) (sh : Shared),
      (Crawl.step F ⟨url, d, .check⟩ sh).sh = sh) ∧
    (run F s sched = some s1 →
      s.sh.repo.urls <+: s1.sh.repo.urls ∧
      (s.sh.repo.urlExists x = true → s1.sh.repo.urlExists x = true)) := by
  refine ⟨?_, ?_, ?_, ?_⟩
  · intro h
    rw [urlExists_iff] at h ⊢
    simp [URLRepo.save, h]
  · rw [urlExists_iff]
    simp [URLRepo.save]
  · intro url d sh
    simp only [Crawl.step]
    split <;> rfl
  · intro hrun
    have hpre := run_repo sched s s1 hrun
    refine ⟨hpre, ?_⟩
    intro h
    rw [urlExists_iff] at h ⊢
    exact hpre.subset h

theorem repo_append_only_witness :
    checkState.sh.repo.urlExists "B" = true ∧ raceEnd.sh.repo.urlExists "B" = true :=
  have h := (repo_append_only graphABC.Fetch ⟨["A"]⟩ "B" "C" checkState raceEnd
    [1, 3, 1, 3, 3, 3, 3, 4, 4, 3, 2, 2, 2, 1, 1, 1, 2, 2, 2, 1, 0]).2.2.2 (by decide)
  ⟨by decide, h.2 (by decide)⟩

/-- C10: the crawl is not complete up to the depth bound. In the graph
`A -> {B, C}`, `B -> {C}`, `C -> {D}` the url `D` is at distance 2 from `A`, and
the execution of `Crawl("A", 3)` in which every spawned call runs to its end as
soon as it is spawned is complete and never hands `D` to `Fetch`: `C` is claimed
by the call spawned from `B` with depth 1, whose child for `D` has depth 0, and
the call for `C` spawned from `A` with depth 2 finds `C` already recorded. -/
theorem crawl_incomplete :
    hasDist graphABCD.Fetch "A" "D" 2 ∧ ((2 : Nat) : Int) < 3 ∧
    run graphABCD.Fetch (init ⟨[]⟩ "A" 3) depthFirst = some depthFirstEnd ∧
    depthFirstEnd.main = .exit ∧ depthFirstEnd.sh.fetched = ["A", "B", "C"] ∧
    "D" ∉ depthFirstEnd.sh.fetched ∧
    depthFirstEnd.sh.spawns = [("B", 2), ("C", 1), ("D", 0), ("C", 2)] := by
  decide

end Crawler
